import Mathlib

/-!
Verification of the iref Discovery Queue Engine against its sources:
the review state machine (src/iref/queue/review.py), the queue store
(src/iref/store/queue_store.py), the dedup builder (src/iref/queue_cmd.py)
and the scanners (src/iref/cli.py, src/iref/queue_cmd.py), shallowly
embedded as executable Lean definitions.
-/

namespace Iref

/-- Review-facing queue item: the fields of a persisted item dictionary that
the review loop reads or writes. `status` and `decided_at` are `Option`s
because the loop accesses them with `dict.get`, which yields `None` both when
the key is absent and when it is stored as JSON null; the loop never
distinguishes the two. Other item fields (path, size, ...) are never touched
by the loop and are elided. -/
structure QItem where
  relpath : String
  status : Option String
  decided_at : Option String
deriving Repr, DecidableEq

/-- Default used only to make list indexing total; every theorem that reads
an item carries the loop guard `index < items.length`, under which the
default is never produced. -/
def dfltItem : QItem := ⟨"", Option.none, Option.none⟩

/-- Decision enum of src/iref/queue/review.py. -/
inductive Decision where
  | accept | stash | reject | next | prev | undo | reopen | help | quit | none
deriving Repr, DecidableEq

/-- String payload of each enum member (`Decision.ACCEPT.value` etc.); the
loop only ever reads it for the three terminal decisions. -/
def Decision.value : Decision → String
  | .accept => "accepted"
  | .stash => "stashed"
  | .reject => "rejected"
  | .next => "next"
  | .prev => "prev"
  | .undo => "undo"
  | .reopen => "reopen"
  | .help => "help"
  | .quit => "quit"
  | .none => "none"

/-- Membership test `act in (Decision.ACCEPT, Decision.STASH, Decision.REJECT)`
from the loop body. -/
def Decision.isDecide : Decision → Bool
  | .accept | .stash | .reject => true
  | _ => false

/-- Observable calls of the loop body into its injected callbacks
(`open_viewer`, `save_record`, `flush`), in call order. -/
inductive Eff where
  | openViewer (idx : Nat)
  | saveRecord (idx : Nat) (item : QItem)
  | flushAll
deriving Repr, DecidableEq

/-- Combined loop state: the (mutated in place) `items` list plus the
`ReviewState` dataclass fields `index`, `show_help` and `last_ops`.
The undo stack keeps its most recent entry first: Python appends to and pops
from the end of `last_ops`, which a cons-list models from the head. -/
structure LoopState where
  items : List QItem
  index : Nat
  show_help : Bool
  last_ops : List (Nat × Option String × Option String)
deriving Repr, DecidableEq

/-- One iteration of the body of `review_loop` for the action returned by
`read_action`, given the value `t` that `now_iso()` would return at this
iteration. The branches appear in source order: NONE, QUIT, HELP, REOPEN,
UNDO (guarded by a non-empty history), the three terminal decisions, NEXT,
PREV; everything else falls through unchanged. Rendering is pure output and
elided; callback invocations are returned as an effect list. The loop guard
`0 <= st.index < len(items)` held whenever this body ran; the function is
total and theorems carry that guard as a hypothesis. `index` is a `Nat`
because the loop keeps it nonnegative (`max(0, ...)` on PREV and at start). -/
def step (auto_open : Bool) (s : LoopState) (act : Decision) (t : String) :
    LoopState × List Eff :=
  let cur := s.items.getD s.index dfltItem
  match act with
  | .none => (s, [])
  | .quit => (s, [])
  | .help => ({ s with show_help := !s.show_help }, [])
  | .reopen => (s, [Eff.openViewer s.index])
  | .undo =>
    match s.last_ops with
    | [] => (s, [])
    | (idx, prev_status, prev_dt) :: rest =>
      let cur2 := s.items.getD idx dfltItem
      let cur2r := { cur2 with status := prev_status, decided_at := prev_dt }
      ({ s with items := s.items.set idx cur2r, index := idx, last_ops := rest },
       [Eff.saveRecord idx cur2r, Eff.flushAll])
  | .accept | .stash | .reject =>
    let entry := (s.index, cur.status, cur.decided_at)
    let curNew := { cur with status := some act.value, decided_at := some t }
    let opens : List Eff :=
      if s.index + 1 < s.items.length ∧ auto_open = true then
        [Eff.openViewer (s.index + 1)]
      else []
    ({ s with items := s.items.set s.index curNew,
              index := s.index + 1,
              last_ops := entry :: s.last_ops },
     [Eff.saveRecord s.index curNew] ++ opens ++ [Eff.flushAll])
  | .next =>
    let ni := min (s.items.length - 1) (s.index + 1)
    ({ s with index := ni }, if auto_open then [Eff.openViewer ni] else [])
  | .prev =>
    let ni := s.index - 1
    ({ s with index := ni }, if auto_open then [Eff.openViewer ni] else [])

/-- Iterated loop: each input is handled only while the guard
`0 <= st.index < len(items)` holds and no QUIT was received, mirroring the
`while` condition and the `break` on `Decision.QUIT`. Effects are dropped
here; reachability claims are about the state evolution. -/
def runSteps (auto_open : Bool) : LoopState → List (Decision × String) → LoopState
  | s, [] => s
  | s, (a, t) :: rest =>
    if s.index < s.items.length then
      if a = .quit then s
      else runSteps auto_open (step auto_open s a t).1 rest
    else s

/-- Starting index clamp `max(0, min(start_index, len(items) - 1))` of
`review_loop`, with Python integer arithmetic. -/
def initIndex (start_index : Int) (n : Nat) : Nat :=
  (max 0 (min start_index ((n : Int) - 1))).toNat

/-- Reading back the element just written by `List.set`. -/
theorem getD_set_self (l : List α) (i : Nat) (a d : α) (h : i < l.length) :
    (l.set i a)[i]?.getD d = a := by
  induction l generalizing i with
  | nil => simp at h
  | cons x xs ih =>
    cases i with
    | zero => simp
    | succ n =>
      simp only [List.set_cons_succ, List.getElem?_cons_succ]
      exact ih n (by simpa using h)

/-- Writing back the element already present leaves the list unchanged. -/
theorem set_getD_self (l : List α) (i : Nat) (d : α) (h : i < l.length) :
    l.set i (l[i]?.getD d) = l := by
  induction l generalizing i with
  | nil => simp
  | cons x xs ih =>
    cases i with
    | zero => simp
    | succ n =>
      simp only [List.getElem?_cons_succ, List.set_cons_succ, List.cons.injEq, true_and]
      exact ih n (by simpa using h)

/-- Eta expansion for `QItem`. -/
theorem qitem_eta (q : QItem) : (⟨q.relpath, q.status, q.decided_at⟩ : QItem) = q := rfl

/-- C1: applying Accept, Stash or Reject at the current (in-range) index and
then immediately Undo restores the decided item wholesale, hence its `status`
and `decided_at`, to their pre-decision values, leaves every other item
untouched (the item list equals the original), moves the index back to the
decided position, pops the history entry, and persists the restored item
(a `save_record` call with the restored item followed by a `flush`); and Undo
with an empty undo history is a no-op producing no effects. -/
theorem review_undo_restores (auto_open : Bool) (s : LoopState) (act : Decision)
    (t tu : String) (hidx : s.index < s.items.length) (hact : act.isDecide = true) :
    (step auto_open (step auto_open s act t).1 .undo tu).1.items = s.items ∧
    (step auto_open (step auto_open s act t).1 .undo tu).1.index = s.index ∧
    (step auto_open (step auto_open s act t).1 .undo tu).1.last_ops = s.last_ops ∧
    (step auto_open (step auto_open s act t).1 .undo tu).2 =
      [Eff.saveRecord s.index (s.items.getD s.index dfltItem), Eff.flushAll] ∧
    (∀ s2 : LoopState, ∀ u : String, s2.last_ops = [] →
      step auto_open s2 .undo u = (s2, [])) := by
  have hnoop : ∀ s2 : LoopState, ∀ u : String, s2.last_ops = [] →
      step auto_open s2 .undo u = (s2, []) := by
    intro s2 u h2
    simp [step, h2]
  have hget : ∀ a : QItem, (s.items.set s.index a)[s.index]?.getD dfltItem = a :=
    fun a => getD_set_self _ _ _ _ (by simpa using hidx)
  have hput : s.items.set s.index (s.items[s.index]?.getD dfltItem) = s.items :=
    set_getD_self _ _ _ hidx
  refine ⟨?_, ?_, ?_, ?_, hnoop⟩ <;>
    cases act <;> first
      | exact absurd hact (by decide)
      | simp [step, Decision.value, hget, List.set_set, qitem_eta, hput]

/-- Witness for C1: a one-item pending queue, Accept at index 0, then Undo;
the item list is restored to its original value. -/
theorem review_undo_restores_witness :
    (0 : Nat) < ([(⟨"a.jpg", some "pending", Option.none⟩ : QItem)] : List QItem).length ∧
    Decision.accept.isDecide = true ∧
    (step true (step true ⟨[⟨"a.jpg", some "pending", Option.none⟩], 0, false, []⟩
        .accept "T1").1 .undo "T2").1.items
      = [⟨"a.jpg", some "pending", Option.none⟩] := by
  refine ⟨by decide, by decide, ?_⟩
  have h := review_undo_restores true
    ⟨[⟨"a.jpg", some "pending", Option.none⟩], 0, false, []⟩
    .accept "T1" "T2" (by decide) (by decide)
  exact h.1

/-- C8 (amended): a terminal decision (Accept/Stash/Reject) overwrites the
current item's `status` with the decision's value and `decided_at` with the
current time unconditionally — the loop never inspects the item's prior
status, so an item already in `accepted`/`stashed`/`rejected` is re-decided
like any other; the non-decision, non-undo actions never change any item. -/
theorem review_decision_overwrites (auto_open : Bool) (s : LoopState) (act : Decision)
    (t : String) (hidx : s.index < s.items.length) (hact : act.isDecide = true) :
    ((step auto_open s act t).1.items.getD s.index dfltItem).status = some act.value ∧
    ((step auto_open s act t).1.items.getD s.index dfltItem).decided_at = some t ∧
    (∀ act2 : Decision, act2.isDecide = false → act2 ≠ .undo →
      (step auto_open s act2 t).1.items = s.items) := by
  have hget : ∀ a : QItem, (s.items.set s.index a)[s.index]?.getD dfltItem = a :=
    fun a => getD_set_self _ _ _ _ (by simpa using hidx)
  refine ⟨?_, ?_, ?_⟩
  · cases act <;> first
      | exact absurd hact (by decide)
      | simp [step, hget]
  · cases act <;> first
      | exact absurd hact (by decide)
      | simp [step, hget]
  · intro act2 hd hu
    cases act2 <;>
      first
        | exact absurd rfl hu
        | exact absurd hd (by decide)
        | simp [step]

/-- Concrete two-item pending queue for the C8 counterexample. -/
def cexItems8 : List QItem :=
  [⟨"a.jpg", some "pending", Option.none⟩, ⟨"b.jpg", some "pending", Option.none⟩]

/-- C8 is refuted on the code: starting from two pending items, the loop-step
sequence Accept (item 0 becomes `accepted`, index moves to 1), Prev (index
back to 0), Reject re-decides item 0 from the terminal status `accepted`
to the different terminal status `rejected`, so accepted/stashed/rejected are
not terminal under reachable review steps. -/
theorem review_redecide_terminal_cex :
    ((runSteps true ⟨cexItems8, 0, false, []⟩ [(.accept, "T1")]).items.getD 0 dfltItem).status
      = some "accepted" ∧
    ((runSteps true ⟨cexItems8, 0, false, []⟩
        [(.accept, "T1"), (.prev, "T2"), (.reject, "T3")]).items.getD 0 dfltItem).status
      = some "rejected" := by
  constructor <;> rfl

/-- Witness for the amended C8: rejecting an item whose status is already
`accepted` sets its status to `rejected` (the prior terminal status is
simply overwritten). -/
theorem review_decision_overwrites_witness :
    ((step true ⟨[⟨"a.jpg", some "accepted", some "T0"⟩], 0, false, []⟩
        .reject "T1").1.items.getD 0 dfltItem).status = some "rejected" := by
  have h := review_decision_overwrites true
    ⟨[⟨"a.jpg", some "accepted", some "T0"⟩], 0, false, []⟩ .reject "T1"
    (by decide) (by decide)
  exact h.1

/-! Queue store: `find_index` (src/iref/store/queue_store.py). -/

/-- Token accepted by `find_index`: Python passes either an `int` or a `str`. -/
inductive Token where
  | idx (i : Int)
  | rel (s : String)

/-- Python `str.endswith` on the character sequences of the two strings. -/
def strEndsWith (a b : String) : Bool := b.data.isSuffixOf a.data

/-- First index at which the predicate holds, mirroring the
`for i, it in enumerate(items): if ...: return i` loops of `find_index`. -/
def findFirst (p : QItem → Bool) : List QItem → Option Nat
  | [] => Option.none
  | it :: rest => if p it then some 0 else (findFirst p rest).map (· + 1)

/-- Translation of `find_index`: an int token is used directly as a
bounds-checked position; a string token is resolved by exact `relpath`
equality over the whole list first, and only when that pass finds nothing,
by `relpath.endswith(token)`; otherwise the `ValueError` is modelled as
`Except.error` with the message text. `relpath` is a plain `String` field of
`QItem` because `_validate_queue_payload` guarantees every loaded item
carries a string relpath, so `it.get("relpath")` never yields `None` on the
lists this function is applied to. -/
def find_index (items : List QItem) (token : Token) : Except String Nat :=
  match token with
  | .idx i =>
    if 0 ≤ i ∧ i < (items.length : Int) then .ok i.toNat
    else .error s!"index out of range: {i}"
  | .rel s =>
    match findFirst (fun it => it.relpath == s) items with
    | some i => .ok i
    | Option.none =>
      match findFirst (fun it => strEndsWith it.relpath s) items with
      | some i => .ok i
      | Option.none => .error s!"relpath not found: {s}"

/-- Characterization of `findFirst` succeeding: the hit position satisfies
the predicate and every earlier position fails it. -/
theorem findFirst_eq_some (p : QItem → Bool) (l : List QItem) (k : Nat)
    (hk : k < l.length) (hp : p (l.get ⟨k, hk⟩) = true)
    (hmin : ∀ j (hj : j < l.length), j < k → p (l.get ⟨j, hj⟩) = false) :
    findFirst p l = some k := by
  induction l generalizing k with
  | nil => simp at hk
  | cons x xs ih =>
    cases k with
    | zero =>
      have hx : p x = true := hp
      simp [findFirst, hx]
    | succ n =>
      have hx : p x = false := hmin 0 (by simp) (Nat.succ_pos n)
      have hrec := ih n (by simpa using hk) hp
        (fun j hj hjk => hmin (j + 1) (by simpa using hj) (by omega))
      simp [findFirst, hx, hrec]

/-- Characterization of `findFirst` failing: no position satisfies the
predicate. -/
theorem findFirst_eq_none (p : QItem → Bool) (l : List QItem)
    (h : ∀ j (hj : j < l.length), p (l.get ⟨j, hj⟩) = false) :
    findFirst p l = Option.none := by
  induction l with
  | nil => rfl
  | cons x xs ih =>
    have hx : p x = false := h 0 (by simp)
    have hrec := ih (fun j hj => h (j + 1) (by simpa using hj))
    simp [findFirst, hx, hrec]

/-- C5: `find_index` resolves an integer token as a position exactly when it
is in bounds and errors otherwise; a string token resolves to the first exact
`relpath` match when one exists anywhere (so an exact match wins even over a
suffix match occurring earlier in the sequence, since no assumption about
suffix matches is needed); when no exact match exists anywhere it resolves to
the first suffix match; and it errors when no item matches either way. -/
theorem find_index_spec (items : List QItem) :
    (∀ i : Int, 0 ≤ i → i < (items.length : Int) →
      find_index items (.idx i) = .ok i.toNat) ∧
    (∀ i : Int, i < 0 ∨ (items.length : Int) ≤ i →
      find_index items (.idx i) = .error s!"index out of range: {i}") ∧
    (∀ s : String, ∀ k, ∀ hk : k < items.length,
      (items.get ⟨k, hk⟩).relpath = s →
      (∀ j (hj : j < items.length), j < k → (items.get ⟨j, hj⟩).relpath ≠ s) →
      find_index items (.rel s) = .ok k) ∧
    (∀ s : String,
      (∀ j (hj : j < items.length), (items.get ⟨j, hj⟩).relpath ≠ s) →
      ∀ k, ∀ hk : k < items.length,
        strEndsWith (items.get ⟨k, hk⟩).relpath s = true →
        (∀ j (hj : j < items.length), j < k →
          strEndsWith (items.get ⟨j, hj⟩).relpath s = false) →
        find_index items (.rel s) = .ok k) ∧
    (∀ s : String,
      (∀ j (hj : j < items.length), (items.get ⟨j, hj⟩).relpath ≠ s ∧
        strEndsWith (items.get ⟨j, hj⟩).relpath s = false) →
      find_index items (.rel s) = .error s!"relpath not found: {s}") := by
  refine ⟨?_, ?_, ?_, ?_, ?_⟩
  · intro i h0 hlen
    simp [find_index, h0, hlen]
  · intro i h
    have : ¬ (0 ≤ i ∧ i < (items.length : Int)) := by omega
    simp [find_index, this]
  · intro s k hk hp hmin
    have hff : findFirst (fun it => it.relpath == s) items = some k :=
      findFirst_eq_some _ _ k hk (by simpa using hp)
        (fun j hj hjk => by simpa using hmin j hj hjk)
    simp [find_index, hff]
  · intro s hnone k hk hp hmin
    have hex : findFirst (fun it => it.relpath == s) items = Option.none :=
      findFirst_eq_none _ _ (fun j hj => by simpa using hnone j hj)
    have hsf : findFirst (fun it => strEndsWith it.relpath s) items = some k :=
      findFirst_eq_some _ _ k hk hp hmin
    simp [find_index, hex, hsf]
  · intro s h
    have hex : findFirst (fun it => it.relpath == s) items = Option.none :=
      findFirst_eq_none _ _ (fun j hj => by simpa using (h j hj).1)
    have hsf : findFirst (fun it => strEndsWith it.relpath s) items = Option.none :=
      findFirst_eq_none _ _ (fun j hj => (h j hj).2)
    simp [find_index, hex, hsf]

/-- Concrete queue for the C5 witness: the token `img001.jpg` suffix-matches
item 0 but exactly matches item 1; the exact match at position 1 wins. -/
def exItems5 : List QItem :=
  [⟨"set1/img001.jpg", some "pending", Option.none⟩,
   ⟨"img001.jpg", some "pending", Option.none⟩]

/-- Witness for C5: applying the exact-match-wins conjunct at `exItems5`. -/
theorem find_index_spec_witness :
    strEndsWith "set1/img001.jpg" "img001.jpg" = true ∧
    find_index exItems5 (.rel "img001.jpg") = .ok 1 ∧
    find_index exItems5 (.idx 5) = .error "index out of range: 5" := by
  refine ⟨by decide, ?_, ?_⟩
  · exact (find_index_spec exItems5).2.2.1 "img001.jpg" 1 (by decide)
      (by decide) (by decide)
  · exact (find_index_spec exItems5).2.1 5 (by decide)

/-! Queue store: schema validation and load (src/iref/store/queue_store.py). -/

/-- JSON values as produced by `orjson.loads`. Python dicts become ordered
association lists whose first binding wins in lookups; numeric payloads are
modelled as integers since the validation code never inspects a number. -/
inductive JVal where
  | null
  | jbool (b : Bool)
  | jint (n : Int)
  | jstr (s : String)
  | jarr (xs : List JVal)
  | jobj (fields : List (String × JVal))

/-- Python `dict.get(k)` on an object's fields. -/
def jget (fields : List (String × JVal)) (k : String) : Option JVal :=
  match fields with
  | [] => Option.none
  | (k2, v) :: rest => if k2 == k then some v else jget rest k

/-- Check shared by the `status` and `decided_at` fields of an item:
`item.get(key)` must be `None` — the key absent or stored as JSON null —
or a string; any other present value is rejected. -/
def strOrAbsent (v : Option JVal) : Bool :=
  match v with
  | Option.none => true
  | some .null => true
  | some (.jstr _) => true
  | some _ => false

/-- Per-item checks of `_validate_queue_payload`: the item must be an object,
its `relpath` must be present and a string, and `status` / `decided_at` must
satisfy `strOrAbsent`. The index `i` only feeds the error messages. -/
def validateItem (i : Nat) (it : JVal) : Except String Unit :=
  match it with
  | .jobj fields =>
    match jget fields "relpath" with
    | some (.jstr _) =>
      if strOrAbsent (jget fields "status") then
        if strOrAbsent (jget fields "decided_at") then .ok ()
        else .error s!"queue.json: items[{i}].decided_at must be ISO8601 string or null when present"
      else .error s!"queue.json: items[{i}].status must be a string when present"
    | _ => .error s!"queue.json: items[{i}].relpath must be a string"
  | _ => .error s!"queue.json: items[{i}] must be an object"

/-- The `for i, item in enumerate(payload["items"])` loop: items are checked
in order and the first violation raises. -/
def validateItems : List JVal → Nat → Except String Unit
  | [], _ => .ok ()
  | it :: rest, i =>
    match validateItem i it with
    | .ok _ => validateItems rest (i + 1)
    | .error m => .error m

/-- Translation of `_validate_queue_payload`: top level must be an object
carrying an `items` list, then every item is checked by `validateItem`.
No other checks are performed. -/
def _validate_queue_payload (payload : JVal) : Except String Unit :=
  match payload with
  | .jobj fields =>
    match jget fields "items" with
    | some (.jarr its) => validateItems its 0
    | _ => .error "queue.json: items list is missing"
  | _ => .error "queue.json: top-level must be an object"

/-- Input to `load_queue`, abstracting the filesystem read: the file can be
missing (`FileNotFoundError`), hold bytes that are not JSON (`orjson`
raises, re-raised as `ValueError`), or parse to a JSON value. -/
inductive LoadInput where
  | missing
  | undecodable
  | parsed (v : JVal)

/-- Errors surfaced by `load_queue`. -/
inductive LoadErr where
  | fileNotFound (msg : String)
  | valueError (msg : String)

/-- Translation of `load_queue`: missing file fails with `FileNotFoundError`,
unparseable bytes with `ValueError`, and a parsed value is returned exactly
when `_validate_queue_payload` accepts it (its message is re-raised as the
`ValueError` otherwise). -/
def load_queue : LoadInput → Except LoadErr JVal
  | .missing => .error (.fileNotFound "queue.json not found")
  | .undecodable => .error (.valueError "queue.json is not valid JSON")
  | .parsed v =>
    match _validate_queue_payload v with
    | .ok _ => .ok v
    | .error m => .error (.valueError m)

/-- Boolean success test for `load_queue`. -/
def loadOk (li : LoadInput) : Bool :=
  match load_queue li with
  | .ok _ => true
  | .error _ => false

/-- String relpaths of the items of a payload, in item order (items without a
string relpath contribute nothing; on documents accepted by the store every
item contributes). -/
def relpathStrings (payload : JVal) : List String :=
  match payload with
  | .jobj fields =>
    match jget fields "items" with
    | some (.jarr its) =>
      its.filterMap fun it =>
        match it with
        | .jobj f2 =>
          match jget f2 "relpath" with
          | some (.jstr s) => some s
          | _ => Option.none
        | _ => Option.none
    | _ => []
  | _ => []

/-- Item with relpath `a.jpg`, duplicated in the C7 counterexample payload. -/
def dupItem : JVal := .jobj [("relpath", .jstr "a.jpg")]

/-- Payload whose two items share the relpath `a.jpg`. -/
def dupPayload : JVal := .jobj [("items", .jarr [dupItem, dupItem])]

/-- C7 is refuted on the code: a parsed document whose two items carry the
same relpath `a.jpg` is accepted by `load_queue` — `_validate_queue_payload`
checks types only and never compares relpaths — so the store does not refuse
documents violating relpath uniqueness. -/
theorem load_accepts_duplicate_relpath_cex :
    loadOk (.parsed dupPayload) = true ∧
    relpathStrings dupPayload = ["a.jpg", "a.jpg"] ∧
    ¬ (relpathStrings dupPayload).Nodup := by
  refine ⟨rfl, rfl, ?_⟩
  decide

/-- Shape facts guaranteed by `validateItem` succeeding. -/
theorem validateItem_ok_shape (i : Nat) (it : JVal)
    (h : validateItem i it = .ok ()) :
    ∃ f2, it = .jobj f2 ∧ (∃ s, jget f2 "relpath" = some (.jstr s)) ∧
      strOrAbsent (jget f2 "status") = true ∧
      strOrAbsent (jget f2 "decided_at") = true := by
  cases it with
  | jobj fields =>
    cases hr : jget fields "relpath" with
    | none => simp [validateItem, hr] at h
    | some v =>
      cases v with
      | jstr s =>
        cases h1 : strOrAbsent (jget fields "status") with
        | false => simp [validateItem, hr, h1] at h
        | true =>
          cases h2 : strOrAbsent (jget fields "decided_at") with
          | false => simp [validateItem, hr, h1, h2] at h
          | true => exact ⟨fields, rfl, ⟨s, hr⟩, h1, h2⟩
      | null => simp [validateItem, hr] at h
      | jbool b => simp [validateItem, hr] at h
      | jint n => simp [validateItem, hr] at h
      | jarr xs => simp [validateItem, hr] at h
      | jobj f => simp [validateItem, hr] at h
  | null => simp [validateItem] at h
  | jbool b => simp [validateItem] at h
  | jint n => simp [validateItem] at h
  | jstr s => simp [validateItem] at h
  | jarr xs => simp [validateItem] at h

/-- Shape facts for every item of a list accepted by the validation loop. -/
theorem validateItems_ok_shape (its : List JVal) (i : Nat)
    (h : validateItems its i = .ok ()) :
    ∀ it ∈ its, ∃ f2, it = .jobj f2 ∧
      (∃ s, jget f2 "relpath" = some (.jstr s)) ∧
      strOrAbsent (jget f2 "status") = true ∧
      strOrAbsent (jget f2 "decided_at") = true := by
  induction its generalizing i with
  | nil => simp
  | cons it rest ih =>
    intro x hx
    cases hvi : validateItem i it with
    | error m => simp [validateItems, hvi] at h
    | ok u =>
      cases u
      have hrest : validateItems rest (i + 1) = .ok () := by
        simpa [validateItems, hvi] using h
      rcases List.mem_cons.mp hx with hx0 | hxr
      · subst hx0
        exact validateItem_ok_shape i x hvi
      · exact ih (i + 1) hrest x hxr

/-- C7 (amended): `load_queue` enforces the structural schema — a document it
accepts is an object with an `items` list in which every item is an object
carrying a string `relpath` and whose `status` / `decided_at`, when present,
are strings or null — but relpath uniqueness is not checked, so the relpaths
of an accepted document need not be pairwise distinct. -/
theorem load_validates_shape (v : JVal) (h : loadOk (.parsed v) = true) :
    ∃ fields its, v = .jobj fields ∧ jget fields "items" = some (.jarr its) ∧
      ∀ it ∈ its, ∃ f2, it = .jobj f2 ∧
        (∃ s, jget f2 "relpath" = some (.jstr s)) ∧
        strOrAbsent (jget f2 "status") = true ∧
        strOrAbsent (jget f2 "decided_at") = true := by
  have hv : _validate_queue_payload v = .ok () := by
    unfold loadOk load_queue at h
    cases hv : _validate_queue_payload v with
    | ok u => cases u; rfl
    | error m => simp [hv] at h
  cases v with
  | jobj fields =>
    cases hit : jget fields "items" with
    | none => simp [_validate_queue_payload, hit] at hv
    | some w =>
      cases w with
      | jarr its =>
        have hloop : validateItems its 0 = .ok () := by
          simpa [_validate_queue_payload, hit] using hv
        exact ⟨fields, its, rfl, hit, validateItems_ok_shape its 0 hloop⟩
      | null => simp [_validate_queue_payload, hit] at hv
      | jbool b => simp [_validate_queue_payload, hit] at hv
      | jint n => simp [_validate_queue_payload, hit] at hv
      | jstr s => simp [_validate_queue_payload, hit] at hv
      | jobj f => simp [_validate_queue_payload, hit] at hv
  | null => simp [_validate_queue_payload] at hv
  | jbool b => simp [_validate_queue_payload] at hv
  | jint n => simp [_validate_queue_payload] at hv
  | jstr s => simp [_validate_queue_payload] at hv
  | jarr xs => simp [_validate_queue_payload] at hv

/-- Witness for the amended C7 at a minimal valid payload. -/
theorem load_validates_shape_witness :
    loadOk (.parsed (.jobj [("items", .jarr [])])) = true ∧
    (∃ fields its, (JVal.jobj [("items", .jarr [])]) = .jobj fields ∧
      jget fields "items" = some (.jarr its) ∧
      ∀ it ∈ its, ∃ f2, it = .jobj f2 ∧
        (∃ s, jget f2 "relpath" = some (.jstr s)) ∧
        strOrAbsent (jget f2 "status") = true ∧
        strOrAbsent (jget f2 "decided_at") = true) :=
  ⟨rfl, load_validates_shape _ rfl⟩

/-! Queue store: atomic persistence (src/iref/store/queue_store.py). -/

/-- Filesystem slice touched by one `_atomic_write_json` call: the contents
of the target `queue.json` (absent before the first save) and of this call's
temporary file when one exists. File contents are modelled at the JSON-value
level; `orjson.dumps` is injective on values, so value equality of the target
models byte-for-byte equality of the serialized document. -/
structure FS where
  target : Option JVal
  temp : Option JVal

/-- Injected failure point for one write attempt: `mkstemp` can raise before
the `try` block, the write into the temporary file descriptor can raise, and
`os.replace` can raise; otherwise everything succeeds. -/
inductive WOutcome where
  | ok
  | failMkstemp
  | failWrite
  | failReplace
deriving Repr, DecidableEq

/-- Error propagated out of a failed write (the Python exception re-raised by
the bare `raise` in the `except` handler). -/
inductive IOErr where
  | ioError
deriving Repr, DecidableEq

/-- Translation of `_atomic_write_json`: `mkstemp` creates a temporary file
in the same directory as the target (its failure propagates before anything
is written); the payload is written into the temporary file; `os.replace`
atomically installs it over the target. On any exception inside the `try`,
the handler removes the temporary file and re-raises. -/
def _atomic_write_json (fs : FS) (data : JVal) (o : WOutcome) :
    Option IOErr × FS :=
  match o with
  | .failMkstemp => (some .ioError, fs)
  | .failWrite =>
    let fs1 : FS := { fs with temp := some data }
    (some .ioError, { fs1 with temp := Option.none })
  | .failReplace =>
    let fs1 : FS := { fs with temp := some data }
    (some .ioError, { fs1 with temp := Option.none })
  | .ok => (Option.none, { target := some data, temp := Option.none })

/-- Errors surfaced by `save_all`: the `ValueError` of a failed validation, or
the I/O error propagated from `_atomic_write_json`. -/
inductive SaveErr where
  | invalid (msg : String)
  | io
deriving Repr, DecidableEq

/-- Translation of `save_all`: validate the payload, then write it atomically
to the queue path. -/
def save_all (fs : FS) (queue_data : JVal) (o : WOutcome) : Option SaveErr × FS :=
  match _validate_queue_payload queue_data with
  | .error m => (some (.invalid m), fs)
  | .ok _ =>
    match _atomic_write_json fs queue_data o with
    | (some _, fs2) => (some .io, fs2)
    | (Option.none, fs2) => (Option.none, fs2)

/-- C2: when the write fails at any injected failure point the previously
persisted document is unchanged, no temporary file remains, and the error is
propagated; on success the target holds exactly the new document and the
temporary file is gone (consumed by the atomic `os.replace`). The same holds
through `save_all` for a payload passing validation. The hypothesis
`fs.temp = none` says no temporary file of this call exists beforehand, which
`mkstemp`'s fresh unique name guarantees. -/
theorem atomic_write_spec (fs : FS) (data : JVal) (o : WOutcome)
    (ht : fs.temp = Option.none) :
    (o = .ok → _atomic_write_json fs data o = (Option.none, ⟨some data, Option.none⟩)) ∧
    (o ≠ .ok → (_atomic_write_json fs data o).1 = some IOErr.ioError ∧
      ((_atomic_write_json fs data o).2).target = fs.target ∧
      ((_atomic_write_json fs data o).2).temp = Option.none) ∧
    (_validate_queue_payload data = .ok () → o ≠ .ok →
      (save_all fs data o).1 = some SaveErr.io ∧
      ((save_all fs data o).2).target = fs.target ∧
      ((save_all fs data o).2).temp = Option.none) := by
  refine ⟨?_, ?_, ?_⟩
  · intro h
    subst h
    rfl
  · intro h
    cases o with
    | ok => exact absurd rfl h
    | failMkstemp => exact ⟨rfl, rfl, ht⟩
    | failWrite => exact ⟨rfl, rfl, rfl⟩
    | failReplace => exact ⟨rfl, rfl, rfl⟩
  · intro hv h
    cases o with
    | ok => exact absurd rfl h
    | failMkstemp => simp [save_all, hv, _atomic_write_json, ht]
    | failWrite => simp [save_all, hv, _atomic_write_json]
    | failReplace => simp [save_all, hv, _atomic_write_json]

/-- Witness for C2: a failure while writing the temporary file leaves a
previously saved one-item document untouched, removes the temporary file and
propagates the error, through `save_all`. -/
theorem atomic_write_spec_witness :
    (save_all ⟨some dupPayload, Option.none⟩ (.jobj [("items", .jarr [])])
        .failWrite).1 = some SaveErr.io ∧
    ((save_all ⟨some dupPayload, Option.none⟩ (.jobj [("items", .jarr [])])
        .failWrite).2).target = some dupPayload ∧
    ((save_all ⟨some dupPayload, Option.none⟩ (.jobj [("items", .jarr [])])
        .failWrite).2).temp = Option.none := by
  have h := (atomic_write_spec ⟨some dupPayload, Option.none⟩
    (.jobj [("items", .jarr [])]) .failWrite rfl).2.2 rfl (by simp)
  exact h

/-! Dedup builder (src/iref/queue_cmd.py, `build_queue`). -/

/-- Scanned file as `build_queue` sees it: path, stat data, and the result
`_phash_safe` would produce for it — `Option.none` models the `None` returned
when PIL fails to decode the file. The float `st_mtime` is modelled as an
integer timestamp (only its ordering is ever used). -/
structure SFile where
  path : String
  size : Nat
  mtime : Int
  phash : Option String
deriving Repr, DecidableEq

/-- Queue item produced by the builder (`RefItem` of src/iref/models.py). -/
structure RefItem where
  path : String
  size : Nat
  mtime : Int
  phash : String
  status : String
deriving Repr, DecidableEq

/-- Constructor call `RefItem(path=p, size=..., mtime=..., phash=h, status=st)`. -/
def mkRefItem (f : SFile) (h : String) (st : String) : RefItem :=
  ⟨f.path, f.size, f.mtime, h, st⟩

/-- The count `sum(1 for i in items if i.status == "queued")` recomputed by
the cap check. -/
def countQueued (items : List RefItem) : Nat :=
  (items.filter (fun it => it.status == "queued")).length

/-- The cap test `limit and sum(...) >= limit`: a `None` or zero limit is
falsy and never stops the loop. -/
def capReached (limit : Option Nat) (items : List RefItem) : Bool :=
  match limit with
  | Option.none => false
  | some n => if n = 0 then false else decide (n ≤ countQueued items)

/-- What the loop body decides for one file, combining `if not h: continue`
(`None` and the empty string are both falsy in Python) with the seen-set
membership test `if h in seen_hashes`. -/
inductive BAction where
  | drop
  | dup (h : String)
  | keep (h : String)
deriving Repr, DecidableEq

/-- Classification of one file's hash against the current seen-set. -/
def classify (seen : List String) (ph : Option String) : BAction :=
  match ph with
  | Option.none => .drop
  | some h => if h.isEmpty then .drop else if h ∈ seen then .dup h else .keep h

/-- The `for p in files` loop of `build_queue` over the files in traversal
(sorted) order, threading the local `seen_hashes` set (a list without
duplicate insertions) and the `items` accumulator. A duplicate hash appends a
`skipped-duplicate` item without touching the seen-set; a fresh hash is added
to the seen-set and appends a `queued` item, after which the cap check may
`break` out of the loop. -/
def build_queue_go (limit : Option Nat) :
    List SFile → List String → List RefItem → List RefItem × List String
  | [], seen, items => (items, seen)
  | f :: fs, seen, items =>
    match classify seen f.phash with
    | .drop => build_queue_go limit fs seen items
    | .dup h =>
      build_queue_go limit fs seen (items ++ [mkRefItem f h "skipped-duplicate"])
    | .keep h =>
      let items2 := items ++ [mkRefItem f h "queued"]
      if capReached limit items2 then (items2, h :: seen)
      else build_queue_go limit fs (h :: seen) items2

/-- Stable insertion placing `f` before the first strictly older file, so
equal timestamps keep their original order — the ordering of Python's stable
`files.sort(key=lambda p: p.stat().st_mtime, reverse=True)`. -/
def insertByMtime (f : SFile) : List SFile → List SFile
  | [] => [f]
  | g :: gs => if g.mtime < f.mtime then f :: g :: gs else g :: insertByMtime f gs

/-- Sort by modification time, newest first. -/
def sortByMtimeDesc : List SFile → List SFile
  | [] => []
  | f :: fs => insertByMtime f (sortByMtimeDesc fs)

/-- Translation of `build_queue`: the enumeration of files under the root
with a matching extension, and their `stat` results, are abstracted into the
input list; the files are sorted newest-first and the loop runs over them.
`seen0` is the contents of the local set built by
`set() if seen_hashes is None else set(seen_hashes)` — the copying itself is
analysed on the heap model below (`build_queue_heap`). The returned pair also
exposes the final local seen-set, which in Python is simply the loop
variable's value when the function returns. -/
def build_queue (files : List SFile) (limit : Option Nat) (seen0 : List String) :
    List RefItem × List String :=
  build_queue_go limit (sortByMtimeDesc files) seen0 []

/-- Inversion for `classify` producing `dup`: the hash was in the seen-set. -/
theorem classify_dup_mem (seen : List String) (ph : Option String) (h : String)
    (hc : classify seen ph = .dup h) : h ∈ seen := by
  cases ph with
  | none => simp [classify] at hc
  | some h2 =>
    by_cases he : h2.isEmpty = true
    · simp [classify, he] at hc
    · by_cases hm : h2 ∈ seen
      · simp [classify, he, hm] at hc
        exact hc ▸ hm
      · simp [classify, he, hm] at hc

/-- Inversion for `classify` producing `keep`: the hash was fresh. -/
theorem classify_keep_not_mem (seen : List String) (ph : Option String) (h : String)
    (hc : classify seen ph = .keep h) : h ∉ seen := by
  cases ph with
  | none => simp [classify] at hc
  | some h2 =>
    by_cases he : h2.isEmpty = true
    · simp [classify, he] at hc
    · by_cases hm : h2 ∈ seen
      · simp [classify, he, hm] at hc
      · simp [classify, he, hm] at hc
        exact hc ▸ hm

/-- The accumulator is a sub-collection of the loop's output: items already
appended are never removed. -/
theorem build_queue_go_acc_subset (limit : Option Nat) (fs : List SFile) :
    ∀ seen items it, it ∈ items → it ∈ (build_queue_go limit fs seen items).1 := by
  induction fs with
  | nil =>
    intro seen items it h
    simpa [build_queue_go] using h
  | cons f fs ih =>
    intro seen items it h
    rw [build_queue_go]
    cases classify seen f.phash with
    | drop => exact ih _ _ _ h
    | dup h2 => exact ih _ _ _ (List.mem_append_left _ h)
    | keep h2 =>
      by_cases hcap : capReached limit (items ++ [mkRefItem f h2 "queued"]) = true
      · simp only [hcap, if_true]
        exact List.mem_append_left _ h
      · simp only [hcap, if_false, Bool.false_eq_true]
        exact ih _ _ _ (List.mem_append_left _ h)

/-- Characterization of the final seen-set: given that every queued item of
the accumulator already has its hash in the seen-set, the final seen-set is
exactly the incoming seen-set plus the hashes of the queued output items. -/
theorem build_queue_go_seen_spec (limit : Option Nat) (fs : List SFile) :
    ∀ seen items,
      (∀ it : RefItem, it ∈ items → it.status = "queued" → it.phash ∈ seen) →
      ∀ x : String, x ∈ (build_queue_go limit fs seen items).2 ↔
        x ∈ seen ∨ ∃ it : RefItem, it ∈ (build_queue_go limit fs seen items).1 ∧
          it.status = "queued" ∧ it.phash = x := by
  induction fs with
  | nil =>
    intro seen items H1 x
    simp only [build_queue_go]
    constructor
    · exact fun hx => Or.inl hx
    · rintro (hx | ⟨it, hit, hq, hp⟩)
      · exact hx
      · exact hp ▸ H1 it hit hq
  | cons f fs ih =>
    intro seen items H1 x
    rw [build_queue_go]
    cases hc : classify seen f.phash with
    | drop => exact ih seen items H1 x
    | dup h =>
      apply ih
      intro it hit hq
      rcases List.mem_append.mp hit with h1 | h2
      · exact H1 it h1 hq
      · have he : it = mkRefItem f h "skipped-duplicate" := by simpa using h2
        rw [he] at hq
        simp [mkRefItem] at hq
    | keep h =>
      have hfresh := classify_keep_not_mem seen f.phash h hc
      have H1' : ∀ it : RefItem, it ∈ items ++ [mkRefItem f h "queued"] →
          it.status = "queued" → it.phash ∈ h :: seen := by
        intro it hit _
        rcases List.mem_append.mp hit with h1 | h2
        · rename_i hq
          exact List.mem_cons_of_mem _ (H1 it h1 hq)
        · have he : it = mkRefItem f h "queued" := by simpa using h2
          rw [he]
          exact List.mem_cons_self _ _
      by_cases hcap : capReached limit (items ++ [mkRefItem f h "queued"]) = true
      · simp only [hcap, if_true]
        constructor
        · intro hx
          rcases List.mem_cons.mp hx with rfl | hx2
          · exact Or.inr ⟨mkRefItem f x "queued",
              List.mem_append_right _ (List.mem_singleton_self _), rfl, rfl⟩
          · exact Or.inl hx2
        · rintro (hx | ⟨it, hit, hq, hp⟩)
          · exact List.mem_cons_of_mem _ hx
          · rcases List.mem_append.mp hit with h1 | h2
            · exact List.mem_cons_of_mem _ (hp ▸ H1 it h1 hq)
            · have he : it = mkRefItem f h "queued" := by simpa using h2
              rw [he] at hp
              simp [mkRefItem] at hp
              rw [← hp]
              exact List.mem_cons_self _ _
      · simp only [hcap, if_false, Bool.false_eq_true]
        rw [ih (h :: seen) _ H1' x]
        constructor
        · rintro (hx | hex)
          · rcases List.mem_cons.mp hx with rfl | hx2
            · refine Or.inr ⟨mkRefItem f x "queued", ?_, rfl, rfl⟩
              exact build_queue_go_acc_subset limit fs _ _ _
                (List.mem_append_right _ (List.mem_singleton_self _))
            · exact Or.inl hx2
          · exact Or.inr hex
        · rintro (hx | hex)
          · exact Or.inl (List.mem_cons_of_mem _ hx)
          · exact Or.inr hex

/-- Relation stating the dedup guarantee between an earlier and a later
output item: sharing the earlier item's fingerprint forces the later one to
be a skipped duplicate. -/
def dupAfter (a b : RefItem) : Prop := a.phash = b.phash → b.status = "skipped-duplicate"

/-- Pairwise dedup invariant of the loop: provided every accumulator item
already has its hash in the seen-set and the accumulator itself satisfies the
pairwise guarantee, so does the output. -/
theorem build_queue_go_pairwise (limit : Option Nat) (fs : List SFile) :
    ∀ seen items,
      (∀ it : RefItem, it ∈ items → it.phash ∈ seen) →
      List.Pairwise dupAfter items →
      List.Pairwise dupAfter (build_queue_go limit fs seen items).1 := by
  induction fs with
  | nil =>
    intro seen items H2 H3
    simpa [build_queue_go] using H3
  | cons f fs ih =>
    intro seen items H2 H3
    rw [build_queue_go]
    cases hc : classify seen f.phash with
    | drop => exact ih seen items H2 H3
    | dup h =>
      have hmem := classify_dup_mem seen f.phash h hc
      apply ih
      · intro it hit
        rcases List.mem_append.mp hit with h1 | h2
        · exact H2 it h1
        · have he : it = mkRefItem f h "skipped-duplicate" := by simpa using h2
          rw [he]
          exact hmem
      · refine List.pairwise_append.mpr ⟨H3, List.pairwise_singleton _ _, ?_⟩
        intro a _ b hb
        have he : b = mkRefItem f h "skipped-duplicate" := by simpa using hb
        rw [he]
        intro _
        rfl
    | keep h =>
      have hfresh := classify_keep_not_mem seen f.phash h hc
      have H2' : ∀ it : RefItem, it ∈ items ++ [mkRefItem f h "queued"] →
          it.phash ∈ h :: seen := by
        intro it hit
        rcases List.mem_append.mp hit with h1 | h2
        · exact List.mem_cons_of_mem _ (H2 it h1)
        · have he : it = mkRefItem f h "queued" := by simpa using h2
          rw [he]
          exact List.mem_cons_self _ _
      have H3' : List.Pairwise dupAfter (items ++ [mkRefItem f h "queued"]) := by
        refine List.pairwise_append.mpr ⟨H3, List.pairwise_singleton _ _, ?_⟩
        intro a ha b hb hpe
        exfalso
        have he : b = mkRefItem f h "queued" := by simpa using hb
        rw [he] at hpe
        simp [mkRefItem] at hpe
        exact hfresh (hpe ▸ H2 a ha)
      by_cases hcap : capReached limit (items ++ [mkRefItem f h "queued"]) = true
      · simp only [hcap, if_true]
        exact H3'
      · simp only [hcap, if_false, Bool.false_eq_true]
        exact ih _ _ H2' H3'

/-- C3: on any input file sequence, cap and initial seen-set, whenever two
output items (output order is processing order) share a fingerprint the later
one is marked `skipped-duplicate` — first occurrence wins and fingerprints in
the initial seen-set make every occurrence a duplicate — and the final
seen-set holds exactly the initial fingerprints plus the fingerprints of the
items marked `queued`: a fingerprint carried only by skipped-duplicate items
enters the seen-set only if it was in the initial set already. -/
theorem build_queue_dedup (files : List SFile) (limit : Option Nat)
    (seen0 : List String) :
    (∀ x : String, x ∈ (build_queue files limit seen0).2 ↔
      x ∈ seen0 ∨ ∃ it : RefItem, it ∈ (build_queue files limit seen0).1 ∧
        it.status = "queued" ∧ it.phash = x) ∧
    (∀ i j : Fin (build_queue files limit seen0).1.length, (i : Nat) < (j : Nat) →
      ((build_queue files limit seen0).1.get i).phash
        = ((build_queue files limit seen0).1.get j).phash →
      ((build_queue files limit seen0).1.get j).status = "skipped-duplicate") := by
  constructor
  · intro x
    exact build_queue_go_seen_spec limit (sortByMtimeDesc files) seen0 []
      (by simp) x
  · have hp : List.Pairwise dupAfter (build_queue files limit seen0).1 :=
      build_queue_go_pairwise limit (sortByMtimeDesc files) seen0 []
        (by simp) (by simp)
    intro i j hij hph
    exact List.pairwise_iff_get.mp hp i j hij hph

/-- Newer of the two same-hash files in the C3 witness. -/
def wf1 : SFile := ⟨"new.jpg", 10, 100, some "hh"⟩

/-- Older of the two same-hash files in the C3 witness. -/
def wf2 : SFile := ⟨"old.jpg", 10, 50, some "hh"⟩

/-- Witness for C3: two files with the same fingerprint and an empty initial
seen-set; the later (older) one comes out `skipped-duplicate` and the shared
fingerprint is in the final seen-set through the queued item. -/
theorem build_queue_dedup_witness :
    ((build_queue [wf1, wf2] Option.none []).1.get ⟨1, by decide⟩).status
      = "skipped-duplicate" ∧
    "hh" ∈ (build_queue [wf1, wf2] Option.none []).2 := by
  constructor
  · exact (build_queue_dedup [wf1, wf2] Option.none []).2
      ⟨0, by decide⟩ ⟨1, by decide⟩ (by decide) (by decide)
  · exact ((build_queue_dedup [wf1, wf2] Option.none []).1 "hh").mpr
      (Or.inr ⟨mkRefItem wf1 "hh" "queued", by decide, rfl, rfl⟩)

/-- Appending one item changes the queued count by one exactly when the item
is queued. -/
theorem countQueued_append (items : List RefItem) (x : RefItem) :
    countQueued (items ++ [x])
      = countQueued items + (if x.status = "queued" then 1 else 0) := by
  by_cases hx : x.status = "queued" <;>
    simp [countQueued, List.filter_append, hx]

/-- Cap invariant of the loop: entering with strictly fewer queued items than
the cap, the output never exceeds the cap — a fresh hash pushes the count up
by one and the `break` fires as soon as the cap is met. -/
theorem build_queue_go_cap (n : Nat) (fs : List SFile) :
    ∀ seen items, countQueued items < n →
      countQueued (build_queue_go (some n) fs seen items).1 ≤ n := by
  induction fs with
  | nil =>
    intro seen items h
    simp only [build_queue_go]
    omega
  | cons f fs ih =>
    intro seen items h
    rw [build_queue_go]
    cases classify seen f.phash with
    | drop => exact ih _ _ h
    | dup h2 =>
      apply ih
      rw [countQueued_append]
      simp [mkRefItem]
      omega
    | keep h2 =>
      have hcnt : countQueued (items ++ [mkRefItem f h2 "queued"])
          = countQueued items + 1 := by
        rw [countQueued_append]
        simp [mkRefItem]
      by_cases hcap : capReached (some n) (items ++ [mkRefItem f h2 "queued"]) = true
      · simp only [hcap, if_true]
        omega
      · simp only [hcap, if_false, Bool.false_eq_true]
        apply ih
        have hn : n ≠ 0 := by omega
        simp only [capReached, hn, if_false, decide_eq_true_eq] at hcap
        omega

/-- C4 (amended): with cap `limit = N >= 1` the output holds at most `N`
queued items; the loop breaks out of the traversal the moment the Nth queued
item is appended, so files after that point — duplicates included — are not
examined and are not recorded at all (see the counterexample). -/
theorem build_queue_cap_bound (files : List SFile) (seen0 : List String)
    (n : Nat) (hn : 1 ≤ n) :
    countQueued (build_queue files (some n) seen0).1 ≤ n :=
  build_queue_go_cap n (sortByMtimeDesc files) seen0 []
    (by simpa [countQueued] using hn)

/-- Witness for the amended C4: three distinct-hash files under cap 1 produce
exactly one queued item, within the bound. -/
theorem build_queue_cap_bound_witness :
    (1 : Nat) ≤ 1 ∧
    countQueued (build_queue [⟨"a.jpg", 1, 30, some "ha"⟩,
      ⟨"b.jpg", 1, 20, some "hb"⟩, ⟨"c.jpg", 1, 10, some "hc"⟩]
      (some 1) []).1 ≤ 1 :=
  ⟨by decide, build_queue_cap_bound _ _ 1 (by decide)⟩

/-- Newer file of the C4 counterexample pair (same hash as the older one). -/
def cf1 : SFile := ⟨"f1.jpg", 1, 100, some "h"⟩

/-- Older file of the C4 counterexample pair. -/
def cf2 : SFile := ⟨"f2.jpg", 1, 50, some "h"⟩

/-- C4 is refuted on the code in its second half: with `limit = 1` and two
same-fingerprint files, the cap check `break`s the traversal right after the
first file is queued, so the duplicate encountered later is not recorded as
`skipped-duplicate` — the output is the single queued item and contains no
skipped-duplicate entry, and the cap did restrict the total files examined. -/
theorem build_queue_cap_halts_cex :
    (build_queue [cf1, cf2] (some 1) []).1 = [mkRefItem cf1 "h" "queued"] ∧
    ((build_queue [cf1, cf2] (some 1) []).1.filter
      (fun it => it.status == "skipped-duplicate")) = [] := by
  constructor <;> rfl

/-- C9 (amended): a file whose fingerprint computation fails (`_phash_safe`
returns `None`; the empty string is equally falsy) is dropped by `continue`
without aborting the run — the loop state is exactly as if the file had not
been present — and consequently `build_queue` performs no error counting:
nothing in its result records how many files were dropped. -/
theorem build_queue_drops_failed (limit : Option Nat) (f : SFile)
    (fs : List SFile) (seen : List String) (items : List RefItem)
    (h : f.phash = Option.none ∨ f.phash = some "") :
    build_queue_go limit (f :: fs) seen items = build_queue_go limit fs seen items := by
  rw [build_queue_go]
  have he : "".isEmpty = true := by decide
  rcases h with h | h <;> simp [classify, h, he]

/-- Witness for the amended C9: dropping an undecodable head file. -/
theorem build_queue_drops_failed_witness :
    build_queue_go Option.none [⟨"bad.jpg", 1, 9, Option.none⟩, wf2] [] []
      = build_queue_go Option.none [wf2] [] [] :=
  build_queue_drops_failed Option.none _ [wf2] [] [] (Or.inl rfl)

/-- C9 is refuted on the code in its reporting half: running the builder on
`[bad, good]`, where `bad` fails to decode, returns a result identical in
every component to running it on `[good]` alone — one decode failure versus
zero leaves no trace, so no reported error count exists that could equal the
number of files dropped (the actual scan command counts errors only in
`cli.py`'s metadata scan, which computes no fingerprints at all). -/
theorem build_queue_no_error_report_cex :
    build_queue [⟨"bad.jpg", 1, 200, Option.none⟩, wf2] Option.none []
      = build_queue [wf2] Option.none [] := by
  rfl

/-! Heap model of `build_queue` for the aliasing claim: Python set objects
live in heap cells addressed by references, so that the copy performed by
`set(seen_hashes)` and the in-place mutations of `seen_hashes.add(h)` are
distinguishable. -/

/-- Heap of set objects: cell `r` holds the contents of one Python set;
allocation appends a new cell at index `length`. -/
abbrev Heap := List (List String)

/-- Dereference a cell (valid references always point below `length`). -/
def hget (hp : Heap) (r : Nat) : List String := hp[r]?.getD []

/-- Reading an untouched cell through a `List.set` on a different cell. -/
theorem getD_set_ne (l : List α) (i j : Nat) (a d : α) (h : j ≠ i) :
    (l.set i a)[j]?.getD d = l[j]?.getD d := by
  induction l generalizing i j with
  | nil => simp
  | cons x xs ih =>
    cases i with
    | zero =>
      cases j with
      | zero => exact absurd rfl h
      | succ m => simp
    | succ n =>
      cases j with
      | zero => simp
      | succ m =>
        simp only [List.set_cons_succ, List.getElem?_cons_succ]
        exact ih n m (by omega)

/-- Reading an existing cell after allocating a new one. -/
theorem getD_append_left (l1 l2 : List α) (r : Nat) (d : α) (h : r < l1.length) :
    (l1 ++ l2)[r]?.getD d = l1[r]?.getD d := by
  induction l1 generalizing r with
  | nil => simp at h
  | cons x xs ih =>
    cases r with
    | zero => simp
    | succ m =>
      simp only [List.cons_append, List.getElem?_cons_succ]
      exact ih m (by simpa using h)

/-- The `build_queue` loop on the heap: the local set is the cell `lr`, and
`seen_hashes.add(h)` updates that one cell in place. Identical to
`build_queue_go` except that the seen-set is read from and written through
the heap. -/
def build_queue_heap_go (limit : Option Nat) :
    List SFile → Heap → Nat → List RefItem → List RefItem × Heap
  | [], hp, _, items => (items, hp)
  | f :: fs, hp, lr, items =>
    match classify (hget hp lr) f.phash with
    | .drop => build_queue_heap_go limit fs hp lr items
    | .dup h =>
      build_queue_heap_go limit fs hp lr (items ++ [mkRefItem f h "skipped-duplicate"])
    | .keep h =>
      let hp2 := hp.set lr (h :: hget hp lr)
      let items2 := items ++ [mkRefItem f h "queued"]
      if capReached limit items2 then (items2, hp2)
      else build_queue_heap_go limit fs hp2 lr items2

/-- Entry of `build_queue` on the heap:
`seen_hashes = set() if seen_hashes is None else set(seen_hashes)` allocates
a fresh set object — a new cell at the end of the heap — initialized either
empty or as a copy of the caller's cell contents; the loop then works only
through the fresh reference. -/
def build_queue_heap (hp : Heap) (seenRef : Option Nat) (files : List SFile)
    (limit : Option Nat) : List RefItem × Heap :=
  let init : List String :=
    match seenRef with
    | Option.none => []
    | some r => hget hp r
  build_queue_heap_go limit (sortByMtimeDesc files) (hp ++ [init]) hp.length []

/-- The loop writes only through the local reference: every other cell of the
heap is unchanged when it returns. -/
theorem build_queue_heap_go_frame (limit : Option Nat) (fs : List SFile) :
    ∀ hp lr items r, r ≠ lr →
      hget (build_queue_heap_go limit fs hp lr items).2 r = hget hp r := by
  induction fs with
  | nil =>
    intro hp lr items r _
    rfl
  | cons f fs ih =>
    intro hp lr items r hne
    rw [build_queue_heap_go]
    cases classify (hget hp lr) f.phash with
    | drop => exact ih _ _ _ _ hne
    | dup h => exact ih _ _ _ _ hne
    | keep h =>
      by_cases hcap : capReached limit (items ++ [mkRefItem f h "queued"]) = true
      · simp only [hcap, if_true]
        exact getD_set_ne hp lr r _ [] hne
      · simp only [hcap, if_false, Bool.false_eq_true]
        rw [ih _ _ _ _ hne]
        exact getD_set_ne hp lr r _ [] hne

/-- C10: calling the builder with a caller-supplied seen-fingerprints set
leaves the caller's set object unchanged — the first line of `build_queue`
copies it into a fresh set and all `add` calls mutate only the copy, so
fingerprints of newly queued items never reach the set the caller passed. -/
theorem build_queue_seen_frame (hp : Heap) (r : Nat) (files : List SFile)
    (limit : Option Nat) (hr : r < hp.length) :
    hget (build_queue_heap hp (some r) files limit).2 r = hget hp r := by
  unfold build_queue_heap
  rw [build_queue_heap_go_frame limit _ _ _ _ r (by omega)]
  exact getD_append_left hp _ r [] hr

/-- Witness for C10: a one-cell heap holding `["h0"]`; after building a queue
from a file with fresh hash `hh`, the caller cell still holds `["h0"]` while
the copy (cell 1) received the new fingerprint. -/
theorem build_queue_seen_frame_witness :
    hget (build_queue_heap [["h0"]] (some 0) [wf1] Option.none).2 0 = ["h0"] ∧
    hget (build_queue_heap [["h0"]] (some 0) [wf1] Option.none).2 1 = ["hh", "h0"] :=
  ⟨build_queue_seen_frame [["h0"]] 0 [wf1] Option.none (by decide), rfl⟩

/-! Scanners (src/iref/cli.py `iter_image_files`, src/iref/queue_cmd.py
`_image_files`). -/

/-- ASCII lower-casing of one character, modelling Python `str.lower` on the
names involved (all ASCII). -/
def charLower (c : Char) : Char :=
  if 'A' ≤ c ∧ c ≤ 'Z' then Char.ofNat (c.toNat + 32) else c

/-- ASCII lower-casing of a string. -/
def strLower (s : String) : String := String.mk (s.data.map charLower)

/-- Python `name.startswith(".")`: whether the name begins with a dot. -/
def strStartsWithDot (nm : String) : Bool :=
  match nm.data with
  | [] => false
  | c :: _ => c == '.'

/-- Suffix (extension, dot included) of a bare file name, as
`pathlib.PurePath.suffix` computes it: the part from the last dot, or empty
when there is no dot, when the only dot leads a hidden-file name, or when the
name ends in a dot. -/
def pathSuffix (nm : String) : String :=
  let cs := nm.data
  let ext := (cs.reverse.takeWhile (fun c => c != '.')).reverse
  if ext.length = cs.length then ""
  else if cs.length = ext.length + 1 then ""
  else if ext.isEmpty then ""
  else String.mk ('.' :: ext)

/-- Translation of `is_hidden_or_system_dir` (src/iref/cli.py): the name
starts with a dot, or is `.iref` case-insensitively (the explicit second
check of the source, though subsumed by the first). -/
def is_hidden_or_system_dir (nm : String) : Bool :=
  strStartsWithDot nm || strLower nm == ".iref"

/-- Normalization of one configured extension by `iter_image_files`:
lowercased, with a leading dot added when absent. -/
def normExt (e : String) : String :=
  let el := strLower e
  if strStartsWithDot el then el else "." ++ el

/-- `DEFAULT_EXTS` of src/iref/queue_cmd.py. -/
def DEFAULT_EXTS : List String := [".jpg", ".jpeg", ".png", ".webp"]

mutual
/-- Directory tree under a scan root: the filesystem slice the scanners
traverse. -/
inductive FTree where
  | file (nm : String)
  | dir (nm : String) (children : FForest)

/-- Sibling sequence of tree nodes, as its own inductive so that the
recursions over the tree are structural (and hence computable). -/
inductive FForest where
  | nil
  | cons (t : FTree) (rest : FForest)
end

/-- Name of a node. -/
def FTree.name : FTree → String
  | .file nm => nm
  | .dir nm _ => nm

/-- Whether a node is a directory entry. -/
def FTree.isDir : FTree → Bool
  | .file _ => false
  | .dir _ _ => true

mutual
/-- All file paths at or below a node as component lists that include the
node's own name: the descendant enumeration `root.rglob("*")` performs once
its directory entries are discarded by the `is_file` test. -/
def nodeFiles : FTree → List (List String)
  | .file nm => [[nm]]
  | .dir nm cs => (forestFiles cs).map (fun p => nm :: p)

/-- File paths of all trees of a forest, in order. -/
def forestFiles : FForest → List (List String)
  | .nil => []
  | .cons t rest => nodeFiles t ++ forestFiles rest
end

/-- Translation of `_image_files` (src/iref/queue_cmd.py): `root.rglob("*")`
enumerates every descendant — `pathlib`'s glob does not skip dot-prefixed
names — keeps regular files, and keeps those whose lowercased suffix is in
`exts` (given dot-prefixed, as `DEFAULT_EXTS` is). No directory is pruned. -/
def _image_files (root : FTree) (exts : List String) : List (List String) :=
  let all : List (List String) :=
    match root with
    | .file _ => []
    | .dir _ cs => forestFiles cs
  all.filter (fun p => decide (strLower (pathSuffix (p.getLastD "")) ∈ exts))

/-- The file entries `os.walk` reports for one directory (its `filenames`
loop), filtered by the allow-set. -/
def dirFileEntries (exts : List String) : FForest → List (List String)
  | .nil => []
  | .cons (.file fn) rest =>
    (if decide (strLower (pathSuffix fn) ∈ exts) then [[fn]] else [])
      ++ dirFileEntries exts rest
  | .cons (.dir _ _) rest => dirFileEntries exts rest

mutual
/-- Translation of the `os.walk` traversal inside `iter_image_files`
(src/iref/cli.py): at each directory the files with an allowed suffix are
yielded, then the walk recurses into the kept subdirectories — the in-place
pruning `dirnames[:] = [d for d in dirnames if not
is_hidden_or_system_dir(...)]` keeps hidden and `.iref` directories out of
the recursion entirely. Paths are component lists below the walk root (the
root's own name is not part of them, as with `os.walk`); `exts` arrives
already normalized. -/
def walkFiles (exts : List String) : FTree → List (List String)
  | .file _ => []
  | .dir _ cs => dirFileEntries exts cs ++ walkSubdirs exts cs
termination_by structural t => t

/-- Recursion of the walk into the surviving (non-pruned) subdirectories of
one directory, prefixing yielded paths with the subdirectory name. -/
def walkSubdirs (exts : List String) : FForest → List (List String)
  | .nil => []
  | .cons c rest =>
    (if c.isDir && !is_hidden_or_system_dir c.name then
       (walkFiles exts c).map (fun p => c.name :: p)
     else [])
      ++ walkSubdirs exts rest
termination_by structural f => f
end

/-- Translation of `iter_image_files`: build the normalized allow-set, then
perform the pruned walk. -/
def iter_image_files (root : FTree) (exts : List String) : List (List String) :=
  walkFiles (exts.map normExt) root

/-- Every path yielded for the files of one directory is a bare file name. -/
theorem dirFileEntries_shape (exts : List String) :
    (cs : FForest) → ∀ p ∈ dirFileEntries exts cs, ∃ fn, p = [fn]
  | .nil => by simp [dirFileEntries]
  | .cons (.file fn) rest => by
    intro p hp
    rw [dirFileEntries] at hp
    rcases List.mem_append.mp hp with h1 | h2
    · split at h1
      · exact ⟨fn, by simpa using h1⟩
      · simp at h1
    · exact dirFileEntries_shape exts rest p h2
  | .cons (.dir dn dcs) rest => by
    intro p hp
    rw [dirFileEntries] at hp
    exact dirFileEntries_shape exts rest p hp

mutual
/-- Paths yielded by the pruned walk of one node have no hidden or `.iref`
directory component. -/
theorem walkFiles_no_hidden (exts : List String) :
    (t : FTree) → ∀ p ∈ walkFiles exts t, ∀ d ∈ p.dropLast,
      is_hidden_or_system_dir d = false
  | .file _ => by simp [walkFiles]
  | .dir nm cs => by
    intro p hp d hd
    rw [walkFiles] at hp
    rcases List.mem_append.mp hp with h1 | h2
    · rcases dirFileEntries_shape exts cs p h1 with ⟨fn, rfl⟩
      simp at hd
    · exact walkSubdirs_no_hidden exts cs p h2 d hd

/-- Same fact over the recursion into the surviving subdirectories. -/
theorem walkSubdirs_no_hidden (exts : List String) :
    (cs : FForest) → ∀ p ∈ walkSubdirs exts cs, ∀ d ∈ p.dropLast,
      is_hidden_or_system_dir d = false
  | .nil => by simp [walkSubdirs]
  | .cons c rest => by
    intro p hp d hd
    rw [walkSubdirs] at hp
    rcases List.mem_append.mp hp with h1 | h2
    · by_cases hc : (c.isDir && !is_hidden_or_system_dir c.name) = true
      · rw [if_pos hc] at h1
        rcases List.mem_map.mp h1 with ⟨q, hq, rfl⟩
        cases q with
        | nil => simp at hd
        | cons q0 qr =>
          have hdrop : (c.name :: q0 :: qr).dropLast
              = c.name :: (q0 :: qr).dropLast := rfl
          rw [hdrop] at hd
          rcases List.mem_cons.mp hd with rfl | hd2
          · have hc2 := (Bool.and_eq_true _ _).mp hc
            simpa using hc2.2
          · exact walkFiles_no_hidden exts c (q0 :: qr) hq d hd2
      · rw [if_neg hc] at h1
        simp at h1
    · exact walkSubdirs_no_hidden exts rest p h2 d hd
end

/-- C6 (amended): the CLI scanner `iter_image_files` yields no file located
under a directory whose name starts with a dot or equals `.iref`: such
directories are pruned from the traversal entirely, so no directory component
of any yielded path is hidden. The claim fails for the second cited
enumerator, `_image_files` of the legacy dedup builder, which prunes nothing
(see the counterexample). -/
theorem iter_image_files_prunes (root : FTree) (exts : List String)
    (p : List String) (hp : p ∈ iter_image_files root exts)
    (d : String) (hd : d ∈ p.dropLast) :
    is_hidden_or_system_dir d = false :=
  walkFiles_no_hidden (exts.map normExt) root p hp d hd

/-- Tree with an image file inside a hidden directory. -/
def hiddenTree : FTree :=
  .dir "root" (.cons (.dir ".hidden" (.cons (.file "a.jpg") .nil)) .nil)

/-- C6 is refuted on the code as stated over both cited scanners: the
`_image_files` enumerator of the dedup builder uses `rglob("*")` — which does
not skip dot-directories — with no pruning, and yields the file `a.jpg`
inside the dot-directory `.hidden`; the pruned CLI scanner yields nothing on
the same tree. -/
theorem image_files_yields_hidden_cex :
    _image_files hiddenTree DEFAULT_EXTS = [[".hidden", "a.jpg"]] ∧
    is_hidden_or_system_dir ".hidden" = true ∧
    iter_image_files hiddenTree DEFAULT_EXTS = [] := by
  exact ⟨by decide, by decide, by decide⟩

/-- Tree with an image below a visible subdirectory, for the C6 witness. -/
def subTree : FTree :=
  .dir "root" (.cons (.dir "sub" (.cons (.file "x.jpg") .nil)) .nil)

/-- Witness for the amended C6: on a concrete tree the scanner yields
`sub/x.jpg`, whose only directory component is not hidden. -/
theorem iter_image_files_prunes_witness :
    (["sub", "x.jpg"] ∈ iter_image_files subTree ["jpg"]) ∧
    is_hidden_or_system_dir "sub" = false :=
  ⟨by decide, iter_image_files_prunes subTree ["jpg"] ["sub", "x.jpg"]
    (by decide) "sub" (by decide)⟩

end Iref
